import Mathlib

/-
Verification of the matching engine in `match_jsons.py` (Haryana-assembly
PDF/record reconciler).  Python strings are embedded as `List Char` so that
character-level slicing, lowercasing and newline replacement are exact;
insertion-ordered Python dicts (`pdf_texts`, the `defaultdict`s `scores` and
`best_matches`) are embedded as association lists in insertion order.  The
third-party fuzzy scorer `fuzz.partial_ratio` is kept abstract as a parameter
`pr : Str → Str → Nat` of the matcher, since its implementation is not part of
this repository.
-/

set_option maxHeartbeats 1000000

namespace PdfScraper

/-- Python strings, embedded character by character. -/
abbrev Str := List Char

/-- Python `s.lower()`, embedded as character-wise lowering. -/
def lowerStr (s : Str) : Str := s.map Char.toLower

/-- Python `s.replace("\n", " ")` for the single-character pattern. -/
def replaceNl (s : Str) : Str := s.map (fun c => if c = '\n' then ' ' else c)

/-- Helper for Python `hay.find(needle)`: first index `≥ i` at which `needle`
is a prefix of the remaining hay, scanning left to right. -/
def findSubAux (needle : Str) : Str → Nat → Option Nat
  | [], i => if needle.isPrefixOf ([] : Str) then some i else none
  | c :: t, i =>
      if needle.isPrefixOf (c :: t) then some i else findSubAux needle t (i + 1)

/-- Python `hay.find(needle)`: `some idx` of the first occurrence, `none` when
absent (Python returns `-1`).  Like Python, the empty needle is found at 0. -/
def findSub (hay needle : Str) : Option Nat := findSubAux needle hay 0

/-- Lines 47–52 of `match_jsons.py`: the excerpt stored for a matching
snippet.  Locate `orig` case-insensitively in `text`; if found, slice
`text[max(idx-50,0) : idx+len(orig)+50]`, else take `text[:100]`; either way
replace newlines by spaces.  Nat subtraction makes `idx - 50` exactly
Python's `max(idx - 50, 0)`. -/
def excerptFor (text orig : Str) : Str :=
  match findSub (lowerStr text) (lowerStr orig) with
  | some idx =>
      replaceNl ((text.drop (idx - 50)).take ((idx + orig.length + 50) - (idx - 50)))
  | none => replaceNl (text.take 100)

/-- Per-record hit counters, `scores = defaultdict(int)`: an association list
in insertion order. -/
abbrev Scores := List (String × Nat)

/-- Per-record stored excerpts, `best_matches = defaultdict(str)`. -/
abbrev Bests := List (String × Str)

/-- The in-memory PDF-text table `pdf_texts`, a dict in insertion order. -/
abbrev PdfTable := List (String × Str)

/-- Python `scores[k] += 1` on a `defaultdict(int)`: increment in place,
appending a fresh key (with value 1) at the end. -/
def bumpScore : Scores → String → Scores
  | [], k => [(k, 1)]
  | (k', v) :: rest, k =>
      if k' = k then (k', v + 1) :: rest else (k', v) :: bumpScore rest k

/-- Python `k in d` for an association list. -/
def hasKey (m : List (String × α)) (k : String) : Bool :=
  m.any (fun e => e.1 == k)

/-- Python `d[k]` with a default for a missing key (`defaultdict` semantics,
and dict indexing at keys known to be present). -/
def dictGet (m : List (String × α)) (k : String) (dflt : α) : α :=
  ((m.find? (fun e => e.1 == k)).map (fun e => e.2)).getD dflt

/-- Lines 40–53 of `match_jsons.py`: the body of the inner loop over one
snippet `orig` for the PDF `(name, text)`, updating `(scores, best_matches)`.
Empty snippets are skipped (`if not orig: continue`); on a hit
(`pr orig text > 80`) the counter is bumped and, if this is the PDF's first
hit, its excerpt is stored. -/
def scanSnippet (pr : Str → Str → Nat) (name : String) (text : Str)
    (st : Scores × Bests) (orig : Str) : Scores × Bests :=
  if orig = [] then st
  else if 80 < pr orig text then
    (bumpScore st.1 name,
     if hasKey st.2 name then st.2 else st.2 ++ [(name, excerptFor text orig)])
  else st

/-- One iteration of the outer loop of lines 39–53: all snippets against one
PDF entry. -/
def scanPdf (pr : Str → Str → Nat) (snips : List Str)
    (st : Scores × Bests) (entry : String × Str) : Scores × Bests :=
  snips.foldl (scanSnippet pr entry.1 entry.2) st

/-- The full double loop of lines 39–53, starting from empty dicts. -/
def scanAll (pr : Str → Str → Nat) (snips : List Str) (table : PdfTable) :
    Scores × Bests :=
  table.foldl (scanPdf pr snips) ([], [])

/-- One comparison step of Python `max(iterable, key=f)`: the current best is
kept unless the next element is strictly greater. -/
def maxStep (acc x : String × Nat) : String × Nat :=
  if acc.2 < x.2 then x else acc

/-- Python `max(scores, key=scores.get)` over a dict in insertion order:
`none` on the empty dict (Python would raise, but line 55 guards that case),
otherwise the first key attaining the maximal value. -/
def maxKey : Scores → Option (String × Nat)
  | [] => none
  | kv :: rest => some (rest.foldl maxStep kv)

/-- Result tuple of `match_json_to_pdf`:
`(json_file, best_pdf | None, scores[best_pdf], matched_pairs)`. -/
structure MatchResult where
  file : String
  best : Option String
  count : Nat
  pairs : List (Str × Str)
  deriving DecidableEq, Repr

/-- Lines 34–61 of `match_jsons.py`, with the record's snippet list already
loaded.  If no PDF scored a hit the record has no best match; otherwise the
best PDF is `max(scores, key=scores.get)` and each snippet scoring above the
threshold against the best PDF's text is paired with the single stored
excerpt `best_matches[best_pdf]`. -/
def match_json_to_pdf (pr : Str → Str → Nat) (file : String)
    (snips : List Str) (table : PdfTable) : MatchResult :=
  match maxKey (scanAll pr snips table).1 with
  | none => ⟨file, none, 0, []⟩
  | some kv =>
      ⟨file, some kv.1, dictGet (scanAll pr snips table).1 kv.1 0,
       (snips.filter (fun o => decide (80 < pr o (dictGet table kv.1 [])))).map
         (fun o => (o, dictGet (scanAll pr snips table).2 kv.1 []))⟩

/-- Lines 27–31 of `match_jsons.py`: a record file is a sequence of items
each optionally carrying an `original_text` field (`none` = field absent);
the loader keeps the value of every item that has the field, including empty
strings. -/
def load_json_texts (data : List (Option Str)) : List Str :=
  data.filterMap id

/-- Whether a snippet counts toward a PDF's score: non-empty and scoring
strictly above the threshold 80. -/
def isHit (pr : Str → Str → Nat) (text : Str) (s : Str) : Bool :=
  !s.isEmpty && decide (80 < pr s text)

/-- Number of snippets (duplicates counted separately) that hit a given PDF
text. -/
def hitCount (pr : Str → Str → Nat) (snips : List Str) (text : Str) : Nat :=
  (snips.filter (isHit pr text)).length

/-- Characterization of the `scores` dict after the double loop: one entry per
PDF with at least one hit, in table order, holding its hit count. -/
def specScores (pr : Str → Str → Nat) (snips : List Str) (table : PdfTable) :
    Scores :=
  (table.filter (fun e => decide (0 < hitCount pr snips e.2))).map
    (fun e => (e.1, hitCount pr snips e.2))

/-- Characterization of the `best_matches` dict after the double loop: one
entry per PDF with at least one hit, holding the excerpt computed from the
first snippet that hit it. -/
def specBests (pr : Str → Str → Nat) (snips : List Str) (table : PdfTable) :
    Bests :=
  (table.filter (fun e => decide (0 < hitCount pr snips e.2))).map
    (fun e => (e.1, excerptFor e.2 ((snips.find? (isHit pr e.2)).getD [])))

/-- State of the extraction cache at run start (lines 71–74 of
`match_jsons.py`): `absent` models `os.path.exists(CACHE_FILE)` being false;
`present r` models a present cache file whose `pickle.load` either returns a
table or raises (modelled as an error value). -/
inductive CacheState where
  | absent : CacheState
  | present : Except String PdfTable → CacheState

/-- Lines 71–93 of `match_jsons.py`: how `main` obtains `pdf_texts`.  When the
cache file is absent, every PDF is extracted (`extracted` is the assembled
result of that phase) and the run proceeds; when it is present, `pickle.load`
is attempted with no surrounding handler, so a read failure propagates out of
`main` and aborts the run (`Except.error`). -/
def loadPdfTexts (cache : CacheState) (extracted : PdfTable) :
    Except String PdfTable :=
  match cache with
  | .absent => .ok extracted
  | .present (.ok m) => .ok m
  | .present (.error e) => .error e

/-- One data row of `matches.csv` (line 116 header:
`json_file, matched_pdf, match_count, json_text, pdf_snippet`).  A `none`
best PDF is serialized by Python's csv writer as an empty field. -/
structure CsvRow where
  json_file : String
  matched_pdf : Option String
  match_count : Nat
  json_text : Str
  pdf_snippet : Str
  deriving DecidableEq, Repr

/-- Lines 117–122 of `match_jsons.py`: the rows emitted for one result.  A
result with evidence pairs yields one row per pair; otherwise a single
placeholder row with empty text and excerpt fields. -/
def rowsFor (r : MatchResult) : List CsvRow :=
  if r.pairs.isEmpty then [⟨r.file, r.best, r.count, [], []⟩]
  else r.pairs.map (fun p => ⟨r.file, r.best, r.count, p.1, p.2⟩)

/-- Lines 114–122 of `match_jsons.py`: the data rows of the report, in result
order (the header row is fixed and omitted here). -/
def writeCsv (results : List MatchResult) : List CsvRow :=
  results.foldl (fun acc r => acc ++ rowsFor r) []

/-- Python `"\n".join(text)` over the per-page text list. -/
def joinPages (l : List Str) : Str := (l.intersperse ['\n']).flatten

/-- Lines 17–24 of `match_jsons.py`: `extract_pdf_text`.  A PDF is a list of
pages; `page.extract_text()` returns `some` text or `none`
(`page.extract_text() or ""` turns `none` into the empty string).  Each
page's text is appended to a list which is then joined with newlines. -/
def extract_pdf_text (pages : List (Option Str)) : Str :=
  joinPages (pages.foldl (fun acc p => acc ++ [p.getD []]) [])

/-- Concrete scorer used for counterexamples and witnesses: 100 when the
first string occurs case-insensitively as an exact substring of the second,
else 0 (on exact substrings rapidfuzz's `partial_ratio` likewise scores 100,
and on the empty string it scores 0). -/
def prSub : Str → Str → Nat := fun s t =>
  if s = [] then 0
  else
    match findSub (lowerStr t) (lowerStr s) with
    | some _ => 100
    | none => 0

/-- Concrete PDF text for counterexamples: the snippets `"X"` and `"Y"` occur
at positions 0 and 56, far enough apart that their 50-character excerpt
windows differ. -/
def demoText : Str := ['X'] ++ List.replicate 55 'b' ++ ['Y']

/-- Characterization of a hit as a proposition. -/
theorem isHit_eq_true {pr : Str → Str → Nat} {t s : Str} :
    isHit pr t s = true ↔ s ≠ [] ∧ 80 < pr s t := by
  simp [isHit, List.isEmpty_iff]

/-- Hit counts grow by one at a hitting head snippet. -/
theorem hitCount_cons_hit {pr : Str → Str → Nat} {t s : Str}
    {rest : List Str} (h : isHit pr t s = true) :
    hitCount pr (s :: rest) t = hitCount pr rest t + 1 := by
  simp [hitCount, List.filter_cons, h]

/-- Hit counts are unchanged at a missing head snippet. -/
theorem hitCount_cons_miss {pr : Str → Str → Nat} {t s : Str}
    {rest : List Str} (h : isHit pr t s = false) :
    hitCount pr (s :: rest) t = hitCount pr rest t := by
  simp [hitCount, List.filter_cons, h]

/-- Membership reading of `hasKey`. -/
theorem hasKey_iff {α : Type} (m : List (String × α)) (k : String) :
    hasKey m k = true ↔ k ∈ m.map Prod.fst := by
  simp [hasKey, List.any_eq_true, List.mem_map]

/-- Negative membership reading of `hasKey`. -/
theorem hasKey_eq_false {α : Type} {m : List (String × α)} {k : String} :
    hasKey m k = false ↔ k ∉ m.map Prod.fst := by
  rw [← hasKey_iff]
  cases h : hasKey m k <;> simp [h]

/-- A `hasKey` check distributes over appending. -/
theorem hasKey_append {α : Type} (m₁ m₂ : List (String × α)) (k : String) :
    hasKey (m₁ ++ m₂) k = (hasKey m₁ k || hasKey m₂ k) := by
  simp [hasKey, List.any_append]

/-- Bumping a key absent from the counter dict appends it with value 1. -/
theorem bumpScore_notMem (S : Scores) (k : String)
    (h : k ∉ S.map Prod.fst) : bumpScore S k = S ++ [(k, 1)] := by
  induction S with
  | nil => rfl
  | cons e rest ih =>
      obtain ⟨k', v⟩ := e
      simp only [List.map_cons, List.mem_cons, not_or] at h
      show (if k' = k then (k', v + 1) :: rest else (k', v) :: bumpScore rest k)
          = (k', v) :: rest ++ [(k, 1)]
      rw [if_neg (fun hh => h.1 hh.symm), ih h.2]
      rfl

/-- Bumping a key sitting at the end of the counter dict increments it in
place. -/
theorem bumpScore_last (S : Scores) (k : String) (v : Nat)
    (h : k ∉ S.map Prod.fst) :
    bumpScore (S ++ [(k, v)]) k = S ++ [(k, v + 1)] := by
  induction S with
  | nil => simp [bumpScore]
  | cons e rest ih =>
      obtain ⟨k', w⟩ := e
      simp only [List.map_cons, List.mem_cons, not_or] at h
      simp only [List.cons_append]
      show (if k' = k then (k', w + 1) :: (rest ++ [(k, v)])
            else (k', w) :: bumpScore (rest ++ [(k, v)]) k)
          = (k', w) :: (rest ++ [(k, v + 1)])
      rw [if_neg (fun hh => h.1 hh.symm), ih h.2]

/-- A snippet that is not a hit leaves the loop state unchanged. -/
theorem scanSnippet_miss {pr : Str → Str → Nat} {n : String} {t : Str}
    {st : Scores × Bests} {s : Str} (h : isHit pr t s = false) :
    scanSnippet pr n t st s = st := by
  by_cases hemp : s = []
  · simp [scanSnippet, hemp]
  · have hsc : ¬ 80 < pr s t := by
      intro hlt
      rw [isHit_eq_true.2 ⟨hemp, hlt⟩] at h
      cases h
    simp [scanSnippet, hemp, hsc]

/-- A run of the inner snippet loop with no hits leaves the state unchanged. -/
theorem foldl_scanSnippet_miss (pr : Str → Str → Nat) (n : String) (t : Str)
    (snips : List Str) (st : Scores × Bests)
    (h : ∀ s ∈ snips, isHit pr t s = false) :
    snips.foldl (scanSnippet pr n t) st = st := by
  induction snips generalizing st with
  | nil => rfl
  | cons s rest ih =>
      rw [List.foldl_cons, scanSnippet_miss (h s (List.mem_cons_self s rest))]
      exact ih st (fun s' hs' => h s' (List.mem_cons_of_mem s hs'))

/-- A run of the whole double loop with no hits at all leaves both dicts
empty. -/
theorem scanAll_miss (pr : Str → Str → Nat) (snips : List Str)
    (table : PdfTable)
    (h : ∀ e ∈ table, ∀ s ∈ snips, isHit pr e.2 s = false) :
    scanAll pr snips table = ([], []) := by
  unfold scanAll
  induction table with
  | nil => rfl
  | cons e rest ih =>
      rw [List.foldl_cons]
      rw [show scanPdf pr snips ([], []) e = ([], []) from
        foldl_scanSnippet_miss pr e.1 e.2 snips ([], [])
          (h e (List.mem_cons_self e rest))]
      exact ih (fun e' he' => h e' (List.mem_cons_of_mem e he'))

/-- Shared core of the no-hit claims: when no non-empty snippet scores above
the threshold against any PDF of the table, the record gets no best PDF,
count 0 and no evidence. -/
theorem no_hits_result (pr : Str → Str → Nat) (file : String)
    (snips : List Str) (table : PdfTable)
    (h : ∀ s ∈ snips, ∀ e ∈ table, s ≠ [] → pr s e.2 ≤ 80) :
    match_json_to_pdf pr file snips table = ⟨file, none, 0, []⟩ := by
  have hall : ∀ e ∈ table, ∀ s ∈ snips, isHit pr e.2 s = false := by
    intro e he s hs
    by_cases hemp : s = []
    · simp [isHit, hemp]
    · have := h s hs e he hemp
      simp [isHit, hemp, List.isEmpty_iff, Nat.not_lt.2 this]
  unfold match_json_to_pdf
  rw [scanAll_miss pr snips table hall]
  rfl

/-- Inner snippet loop once the current PDF already sits at the end of the
counter dict and has a stored excerpt: only its counter grows, by the number
of remaining hits. -/
theorem foldl_scanSnippet_post (pr : Str → Str → Nat) (n : String) (t : Str)
    (snips : List Str) :
    ∀ (S : Scores) (B : Bests) (v : Nat),
      n ∉ S.map Prod.fst → hasKey B n = true →
      snips.foldl (scanSnippet pr n t) (S ++ [(n, v)], B) =
        (S ++ [(n, v + hitCount pr snips t)], B) := by
  induction snips with
  | nil => intro S B v _ _; simp [hitCount]
  | cons s rest ih =>
      intro S B v hS hB
      by_cases hhit : isHit pr t s = true
      · obtain ⟨hemp, hsc⟩ := isHit_eq_true.1 hhit
        rw [List.foldl_cons]
        rw [show scanSnippet pr n t (S ++ [(n, v)], B) s = (S ++ [(n, v + 1)], B) by
          simp [scanSnippet, hemp, hsc, bumpScore_last S n v hS, hB]]
        rw [ih S B (v + 1) hS hB, hitCount_cons_hit hhit]
        have : v + 1 + hitCount pr rest t = v + (hitCount pr rest t + 1) := by omega
        rw [this]
      · have hmiss : isHit pr t s = false := by
          cases h : isHit pr t s
          · rfl
          · exact absurd h hhit
        rw [List.foldl_cons, scanSnippet_miss hmiss, ih S B v hS hB,
          hitCount_cons_miss hmiss]

/-- Inner snippet loop for a PDF not yet seen: it either stays absent (no
hits) or is appended to both dicts, with its hit count and the excerpt of its
first hitting snippet. -/
theorem foldl_scanSnippet_pre (pr : Str → Str → Nat) (n : String) (t : Str)
    (snips : List Str) :
    ∀ (S : Scores) (B : Bests),
      n ∉ S.map Prod.fst → hasKey B n = false →
      snips.foldl (scanSnippet pr n t) (S, B) =
        if hitCount pr snips t = 0 then (S, B)
        else (S ++ [(n, hitCount pr snips t)],
              B ++ [(n, excerptFor t ((snips.find? (isHit pr t)).getD []))]) := by
  induction snips with
  | nil => intro S B _ _; simp [hitCount]
  | cons s rest ih =>
      intro S B hS hB
      by_cases hhit : isHit pr t s = true
      · obtain ⟨hemp, hsc⟩ := isHit_eq_true.1 hhit
        rw [List.foldl_cons]
        rw [show scanSnippet pr n t (S, B) s
              = (S ++ [(n, 1)], B ++ [(n, excerptFor t s)]) by
          simp [scanSnippet, hemp, hsc, bumpScore_notMem S n hS, hB]]
        have hBn : hasKey (B ++ [(n, excerptFor t s)]) n = true := by
          simp [hasKey_append, hasKey]
        rw [foldl_scanSnippet_post pr n t rest S (B ++ [(n, excerptFor t s)]) 1 hS hBn]
        rw [hitCount_cons_hit hhit, List.find?_cons_of_pos rest hhit]
        have : (1 : Nat) + hitCount pr rest t = hitCount pr rest t + 1 := by omega
        rw [this, if_neg (Nat.succ_ne_zero _)]
        rfl
      · have hmiss : isHit pr t s = false := by
          cases h : isHit pr t s
          · rfl
          · exact absurd h hhit
        rw [List.foldl_cons, scanSnippet_miss hmiss, ih S B hS hB,
          hitCount_cons_miss hmiss, List.find?_cons_of_neg rest (by simp [hmiss])]

/-- The outer loop appends, per PDF entry in table order, the characterized
score and excerpt entries. -/
theorem scanAll_go (pr : Str → Str → Nat) (snips : List Str) :
    ∀ (table : PdfTable) (S : Scores) (B : Bests),
      (table.map Prod.fst).Nodup →
      (∀ e ∈ table, e.1 ∉ S.map Prod.fst ∧ hasKey B e.1 = false) →
      table.foldl (scanPdf pr snips) (S, B) =
        (S ++ specScores pr snips table, B ++ specBests pr snips table) := by
  intro table
  induction table with
  | nil => intro S B _ _; simp [specScores, specBests]
  | cons e rest ih =>
      intro S B hnd hdisj
      obtain ⟨n, t⟩ := e
      have hS : n ∉ S.map Prod.fst :=
        (hdisj (n, t) (List.mem_cons_self _ _)).1
      have hB : hasKey B n = false :=
        (hdisj (n, t) (List.mem_cons_self _ _)).2
      have hnd' : (rest.map Prod.fst).Nodup := by
        rw [List.map_cons] at hnd
        exact (List.nodup_cons.1 hnd).2
      have hn_rest : n ∉ rest.map Prod.fst := by
        rw [List.map_cons] at hnd
        exact (List.nodup_cons.1 hnd).1
      rw [List.foldl_cons]
      rw [show scanPdf pr snips (S, B) (n, t)
            = snips.foldl (scanSnippet pr n t) (S, B) from rfl]
      rw [foldl_scanSnippet_pre pr n t snips S B hS hB]
      by_cases hzero : hitCount pr snips t = 0
      · rw [if_pos hzero]
        rw [ih S B hnd' (fun e' he' => hdisj e' (List.mem_cons_of_mem _ he'))]
        have : decide (0 < hitCount pr snips t) = false := by
          simp [hzero]
        simp [specScores, specBests, List.filter_cons, this]
      · rw [if_neg hzero]
        have hdec : decide (0 < hitCount pr snips t) = true := by
          simp [Nat.pos_of_ne_zero hzero]
        have hdisj' : ∀ e' ∈ rest,
            e'.1 ∉ (S ++ [(n, hitCount pr snips t)]).map Prod.fst ∧
            hasKey (B ++ [(n, excerptFor t ((snips.find? (isHit pr t)).getD []))]) e'.1
              = false := by
          intro e' he'
          have hne : e'.1 ≠ n := by
            intro hh
            exact hn_rest (hh ▸ List.mem_map_of_mem Prod.fst he')
          have h1 := (hdisj e' (List.mem_cons_of_mem _ he')).1
          have h2 := (hdisj e' (List.mem_cons_of_mem _ he')).2
          constructor
          · simp only [List.map_append, List.map_cons, List.map_nil,
              List.mem_append, List.mem_cons, List.not_mem_nil, or_false]
            rintro (hc | hc)
            · exact h1 hc
            · exact hne hc
          · rw [hasKey_append, h2]
            simp [hasKey, Ne.symm hne]
        rw [ih _ _ hnd' hdisj']
        simp only [specScores, specBests, List.filter_cons, hdec, if_true,
          List.map_cons, List.append_assoc, List.cons_append, List.nil_append]

/-- The double loop of lines 39–53 computes exactly the characterized score
and excerpt dicts, provided the PDF-text table has no duplicate keys (true of
every Python dict). -/
theorem scanAll_eq (pr : Str → Str → Nat) (snips : List Str)
    (table : PdfTable) (hnd : (table.map Prod.fst).Nodup) :
    scanAll pr snips table
      = (specScores pr snips table, specBests pr snips table) := by
  have h := scanAll_go pr snips table [] [] hnd
    (by intro e _; exact ⟨by simp, by simp [hasKey]⟩)
  simpa [scanAll] using h

/-- Python's `max` fold returns the first element of maximal value: it is the
first element whose value equals the result's value, and it bounds every
value in the list. -/
theorem maxFold_find (rest : Scores) :
    ∀ init : String × Nat,
      (init :: rest).find? (fun x => x.2 == (rest.foldl maxStep init).2)
          = some (rest.foldl maxStep init)
      ∧ ∀ x ∈ init :: rest, x.2 ≤ (rest.foldl maxStep init).2 := by
  induction rest with
  | nil =>
      intro init
      refine ⟨by simp [List.find?], ?_⟩
      intro x hx
      rw [List.mem_singleton] at hx
      subst hx
      exact Nat.le_refl _
  | cons y t ih =>
      intro init
      rw [List.foldl_cons]
      by_cases hlt : init.2 < y.2
      · rw [show maxStep init y = y by simp [maxStep, hlt]]
        obtain ⟨hf, hb⟩ := ih y
        have hinit_lt : init.2 < (t.foldl maxStep y).2 :=
          Nat.lt_of_lt_of_le hlt (hb y (List.mem_cons_self y t))
        refine ⟨?_, ?_⟩
        · rw [List.find?_cons_of_neg _ (by simp [Nat.ne_of_lt hinit_lt])]
          exact hf
        · intro x hx
          rcases List.mem_cons.1 hx with h | h
          · subst h; exact Nat.le_of_lt hinit_lt
          · exact hb x h
      · rw [show maxStep init y = init by simp [maxStep, hlt]]
        obtain ⟨hf, hb⟩ := ih init
        have hyle : y.2 ≤ init.2 := Nat.le_of_not_lt hlt
        have hile : init.2 ≤ (t.foldl maxStep init).2 :=
          hb init (List.mem_cons_self init t)
        refine ⟨?_, ?_⟩
        · by_cases hpi : init.2 = (t.foldl maxStep init).2
          · rw [List.find?_cons_of_pos _ (by simp [hpi])]
            rw [List.find?_cons_of_pos _ (by simp [hpi])] at hf
            exact hf
          · rw [List.find?_cons_of_neg _ (by simp [hpi])]
            rw [List.find?_cons_of_neg _ (by simp [hpi])] at hf
            have hpy : y.2 ≠ (t.foldl maxStep init).2 := by
              intro hh
              exact hpi (Nat.le_antisymm hile (hh ▸ hyle))
            rw [List.find?_cons_of_neg _ (by simp [hpy])]
            exact hf
        · intro x hx
          rcases List.mem_cons.1 hx with h | h
          · subst h; exact hile
          · rcases List.mem_cons.1 h with h' | h'
            · subst h'; exact Nat.le_trans hyle hile
            · exact hb x (List.mem_cons_of_mem init h')

/-- Reading of `maxKey` on a non-empty dict. -/
theorem maxKey_eq_some {l : Scores} {kv : String × Nat}
    (h : maxKey l = some kv) :
    l.find? (fun x => x.2 == kv.2) = some kv ∧ ∀ x ∈ l, x.2 ≤ kv.2 := by
  match l with
  | [] => cases h
  | kv₀ :: rest =>
      have hkv : rest.foldl maxStep kv₀ = kv := by
        have : maxKey (kv₀ :: rest) = some (rest.foldl maxStep kv₀) := rfl
        rw [this] at h
        exact Option.some.inj h
      obtain ⟨hf, hb⟩ := maxFold_find rest kv₀
      rw [hkv] at hf hb
      exact ⟨hf, hb⟩

/-- A non-empty dict has a maximal key. -/
theorem maxKey_of_ne_nil {l : Scores} (h : l ≠ []) :
    ∃ kv, maxKey l = some kv := by
  match l with
  | [] => exact absurd rfl h
  | kv₀ :: rest => exact ⟨rest.foldl maxStep kv₀, rfl⟩

/-- Searching a filtered list equals searching the original when the search
predicate implies the filter predicate. -/
theorem find?_filter_of_imp {α : Type} (l : List α) (p q : α → Bool)
    (himp : ∀ a, p a = true → q a = true) :
    (l.filter q).find? p = l.find? p := by
  induction l with
  | nil => rfl
  | cons a t ih =>
      rw [List.filter_cons]
      by_cases hq : q a = true
      · rw [if_pos hq]
        by_cases hp : p a = true
        · rw [List.find?_cons_of_pos _ hp, List.find?_cons_of_pos _ hp]
        · have hp' : ¬ p a := fun hh => hp hh
          rw [List.find?_cons_of_neg _ hp', List.find?_cons_of_neg _ hp']
          exact ih
      · rw [if_neg hq]
        have hp : ¬ p a := fun hh => hq (himp a hh)
        rw [List.find?_cons_of_neg _ hp]
        exact ih

/-- Looking up a key present in a dict with distinct keys returns its value. -/
theorem dictGet_of_mem_nodup {α : Type} (m : List (String × α)) (k : String)
    (v dflt : α) (hnd : (m.map Prod.fst).Nodup) (hmem : (k, v) ∈ m) :
    dictGet m k dflt = v := by
  induction m with
  | nil => cases hmem
  | cons e rest ih =>
      have hnd' : (rest.map Prod.fst).Nodup := by
        rw [List.map_cons] at hnd
        exact (List.nodup_cons.1 hnd).2
      have hhead : e.1 ∉ rest.map Prod.fst := by
        rw [List.map_cons] at hnd
        exact (List.nodup_cons.1 hnd).1
      rcases List.mem_cons.1 hmem with h | h
      · subst h
        have hfind : ((k, v) :: rest).find? (fun e => e.1 == k) = some (k, v) :=
          List.find?_cons_of_pos rest (by simp)
        simp [dictGet, hfind]
      · have hne : e.1 ≠ k := by
          intro hh
          exact hhead (hh ▸ List.mem_map_of_mem Prod.fst h)
        unfold dictGet
        rw [List.find?_cons_of_neg _ (by simp [hne])]
        exact ih hnd' h

/-- Two bindings of the same key in a dict with distinct keys agree. -/
theorem mem_nodup_unique {α : Type} {m : List (String × α)} {k : String}
    {v v' : α} (hnd : (m.map Prod.fst).Nodup)
    (h : (k, v) ∈ m) (h' : (k, v') ∈ m) : v = v' := by
  have h1 := dictGet_of_mem_nodup m k v v hnd h
  have h2 := dictGet_of_mem_nodup m k v' v hnd h'
  rw [h1] at h2
  exact h2

/-- An entry of the characterized score dict comes from a table entry with a
positive hit count. -/
theorem of_mem_specScores {pr : Str → Str → Nat} {snips : List Str}
    {table : PdfTable} {k : String} {c : Nat}
    (h : (k, c) ∈ specScores pr snips table) :
    ∃ t, (k, t) ∈ table ∧ hitCount pr snips t = c ∧ 0 < c := by
  simp only [specScores, List.mem_map, List.mem_filter] at h
  obtain ⟨e, ⟨hmem, hpos⟩, heq⟩ := h
  obtain ⟨h1, h2⟩ := Prod.mk.injEq .. ▸ heq
  refine ⟨e.2, ?_, h2, ?_⟩
  · rw [← h1]
    exact hmem
  · rw [← h2]
    exact of_decide_eq_true hpos

/-- A table entry with a positive hit count appears in the characterized
score dict. -/
theorem mem_specScores_of {pr : Str → Str → Nat} {snips : List Str}
    {table : PdfTable} {k : String} {t : Str}
    (hmem : (k, t) ∈ table) (hpos : 0 < hitCount pr snips t) :
    (k, hitCount pr snips t) ∈ specScores pr snips table := by
  simp only [specScores, List.mem_map, List.mem_filter]
  exact ⟨(k, t), ⟨hmem, by simpa⟩, rfl⟩

/-- A table entry with a positive hit count appears in the characterized
excerpt dict, bound to the excerpt of its first hitting snippet. -/
theorem mem_specBests_of {pr : Str → Str → Nat} {snips : List Str}
    {table : PdfTable} {k : String} {t : Str}
    (hmem : (k, t) ∈ table) (hpos : 0 < hitCount pr snips t) :
    (k, excerptFor t ((snips.find? (isHit pr t)).getD []))
      ∈ specBests pr snips table := by
  simp only [specBests, List.mem_map, List.mem_filter]
  exact ⟨(k, t), ⟨hmem, by simpa⟩, rfl⟩

/-- Distinct table keys give distinct characterized score keys. -/
theorem specScores_keys_nodup {pr : Str → Str → Nat} {snips : List Str}
    {table : PdfTable} (hnd : (table.map Prod.fst).Nodup) :
    ((specScores pr snips table).map Prod.fst).Nodup := by
  have h : (specScores pr snips table).map Prod.fst
      = (table.filter (fun e => decide (0 < hitCount pr snips e.2))).map
          Prod.fst := by
    rw [specScores, List.map_map]
    rfl
  rw [h]
  exact hnd.sublist ((List.filter_sublist table).map Prod.fst)

/-- Distinct table keys give distinct characterized excerpt keys. -/
theorem specBests_keys_nodup {pr : Str → Str → Nat} {snips : List Str}
    {table : PdfTable} (hnd : (table.map Prod.fst).Nodup) :
    ((specBests pr snips table).map Prod.fst).Nodup := by
  have h : (specBests pr snips table).map Prod.fst
      = (table.filter (fun e => decide (0 < hitCount pr snips e.2))).map
          Prod.fst := by
    rw [specBests, List.map_map]
    rfl
  rw [h]
  exact hnd.sublist ((List.filter_sublist table).map Prod.fst)

/-- Closed form of the matcher over the characterized dicts. -/
theorem match_json_to_pdf_eq (pr : Str → Str → Nat) (file : String)
    (snips : List Str) (table : PdfTable)
    (hnd : (table.map Prod.fst).Nodup) :
    match_json_to_pdf pr file snips table =
      match maxKey (specScores pr snips table) with
      | none => ⟨file, none, 0, []⟩
      | some kv =>
          ⟨file, some kv.1, dictGet (specScores pr snips table) kv.1 0,
           (snips.filter (fun o => decide (80 < pr o (dictGet table kv.1 [])))).map
             (fun o => (o, dictGet (specBests pr snips table) kv.1 []))⟩ := by
  unfold match_json_to_pdf
  rw [scanAll_eq pr snips table hnd]

/-- Master characterization of a successful match: the best PDF is a table
entry of positive, maximal hit count, the first such entry in table order;
the count is its hit count; and every evidence pair carries the single
excerpt computed from the first snippet that hit it. -/
theorem best_characterization (pr : Str → Str → Nat) (file : String)
    (snips : List Str) (table : PdfTable) (bp : String)
    (hnd : (table.map Prod.fst).Nodup)
    (hbest : (match_json_to_pdf pr file snips table).best = some bp) :
    ∃ tb,
      (bp, tb) ∈ table ∧
      0 < hitCount pr snips tb ∧
      (match_json_to_pdf pr file snips table).count = hitCount pr snips tb ∧
      (∀ e ∈ table, hitCount pr snips e.2 ≤ hitCount pr snips tb) ∧
      table.find? (fun e => hitCount pr snips e.2 == hitCount pr snips tb)
        = some (bp, tb) ∧
      (match_json_to_pdf pr file snips table).pairs =
        (snips.filter (fun o => decide (80 < pr o tb))).map
          (fun o => (o, excerptFor tb ((snips.find? (isHit pr tb)).getD []))) := by
  rw [match_json_to_pdf_eq pr file snips table hnd] at hbest ⊢
  rcases hmk : maxKey (specScores pr snips table) with _ | kv
  · rw [hmk] at hbest
    simp at hbest
  · rw [hmk] at hbest
    simp only at hbest ⊢
    have hbp : kv.1 = bp := Option.some.inj hbest
    obtain ⟨hfindS, hbound⟩ := maxKey_eq_some hmk
    have hkv_mem : kv ∈ specScores pr snips table :=
      List.mem_of_find?_eq_some hfindS
    have hkv_mem' : (kv.1, kv.2) ∈ specScores pr snips table := by
      simpa using hkv_mem
    obtain ⟨t', hmem', hct', hpos'⟩ := of_mem_specScores hkv_mem'
    -- locate the first table entry whose hit count equals the maximum
    have hfind2 : ((table.filter
            (fun e => decide (0 < hitCount pr snips e.2))).find?
          ((fun x : String × Nat => x.2 == kv.2)
            ∘ (fun e => (e.1, hitCount pr snips e.2)))).map
          (fun e : String × Str => (e.1, hitCount pr snips e.2)) = some kv := by
      rw [← List.find?_map]
      exact hfindS
    obtain ⟨e₀, hfind₀, hge₀⟩ := Option.map_eq_some'.1 hfind2
    have hfind₀' : (table.filter
          (fun e => decide (0 < hitCount pr snips e.2))).find?
          (fun e => hitCount pr snips e.2 == kv.2) = some e₀ := hfind₀
    have hfind_table :
        table.find? (fun e => hitCount pr snips e.2 == kv.2) = some e₀ := by
      rw [← find?_filter_of_imp table (fun e => hitCount pr snips e.2 == kv.2)
            (fun e => decide (0 < hitCount pr snips e.2))
            (fun a ha => by
              have hav : hitCount pr snips a.2 = kv.2 := by simpa using ha
              simp [hav, hpos'])]
      exact hfind₀'
    have hn₀ : e₀.1 = bp := by
      have h := congrArg Prod.fst hge₀
      simpa [hbp] using h
    have hctb : hitCount pr snips e₀.2 = kv.2 := by
      have h := congrArg Prod.snd hge₀
      simpa using h
    have he₀_pair : e₀ = (bp, e₀.2) := by
      rw [← hn₀]
    have hmem_tb : (bp, e₀.2) ∈ table :=
      he₀_pair ▸ List.mem_of_find?_eq_some hfind_table
    have hpos_tb : 0 < hitCount pr snips e₀.2 := hctb ▸ hpos'
    have hcount : dictGet (specScores pr snips table) kv.1 0 = kv.2 :=
      dictGet_of_mem_nodup _ _ _ _ (specScores_keys_nodup hnd) hkv_mem'
    refine ⟨e₀.2, hmem_tb, hpos_tb, ?_, ?_, ?_, ?_⟩
    · rw [hctb]
      exact hcount
    · intro e he
      rw [hctb]
      by_cases hz : hitCount pr snips e.2 = 0
      · rw [hz]
        exact Nat.zero_le _
      · have hmem_e : (e.1, hitCount pr snips e.2)
            ∈ specScores pr snips table := by
          have hpair : (e.1, e.2) ∈ table := by simpa using he
          exact mem_specScores_of hpair (Nat.pos_of_ne_zero hz)
        exact hbound _ hmem_e
    · rw [hctb, ← he₀_pair]
      exact hfind_table
    · have htb_get : dictGet table kv.1 [] = e₀.2 := by
        rw [hbp]
        exact dictGet_of_mem_nodup table bp e₀.2 [] hnd hmem_tb
      have hexc_get : dictGet (specBests pr snips table) kv.1 []
          = excerptFor e₀.2 ((snips.find? (isHit pr e₀.2)).getD []) := by
        rw [hbp]
        exact dictGet_of_mem_nodup _ _ _ _ (specBests_keys_nodup hnd)
          (mem_specBests_of hmem_tb hpos_tb)
      rw [htb_get, hexc_get]

/-- A record with at least one qualifying hit is assigned some best PDF. -/
theorem exists_best_of_hit (pr : Str → Str → Nat) (file : String)
    (snips : List Str) (table : PdfTable)
    (hnd : (table.map Prod.fst).Nodup)
    (hex : ∃ s ∈ snips, s ≠ [] ∧ ∃ e ∈ table, 80 < pr s e.2) :
    ∃ bp, (match_json_to_pdf pr file snips table).best = some bp := by
  obtain ⟨s, hs, hne, e, he, hsc⟩ := hex
  have hhit : isHit pr e.2 s = true := isHit_eq_true.2 ⟨hne, hsc⟩
  have hpos : 0 < hitCount pr snips e.2 :=
    List.length_pos.2
      (List.ne_nil_of_mem (List.mem_filter.2 ⟨hs, hhit⟩))
  have hmem : (e.1, hitCount pr snips e.2) ∈ specScores pr snips table :=
    mem_specScores_of (by simpa using he) hpos
  obtain ⟨kv, hmk⟩ := maxKey_of_ne_nil (List.ne_nil_of_mem hmem)
  rw [match_json_to_pdf_eq pr file snips table hnd, hmk]
  exact ⟨kv.1, rfl⟩

/-- A left fold that appends blocks equals the flattened map. -/
theorem foldl_append_blocks {α β : Type} (g : α → List β) (l : List α) :
    ∀ acc : List β,
      l.foldl (fun a r => a ++ g r) acc = acc ++ (l.map g).flatten := by
  induction l with
  | nil => intro acc; simp
  | cons x t ih =>
      intro acc
      rw [List.foldl_cons, ih]
      simp [List.append_assoc]

/-- A left fold that pushes one element per input equals the map. -/
theorem foldl_push {α β : Type} (f : α → β) (l : List α) :
    ∀ acc : List β, l.foldl (fun a p => a ++ [f p]) acc = acc ++ l.map f := by
  induction l with
  | nil => intro acc; simp
  | cons x t ih =>
      intro acc
      rw [List.foldl_cons, ih]
      simp

/-- C1: for every record with at least one non-empty snippet whose score
against some PDF text strictly exceeds 80, `match_json_to_pdf` returns a
best PDF whose hit count is maximal: no other PDF in the table has a
strictly greater count of snippets scoring above the threshold against it. -/
theorem C1_best_is_maximal (pr : Str → Str → Nat) (file : String)
    (snips : List Str) (table : PdfTable)
    (hnd : (table.map Prod.fst).Nodup)
    (hex : ∃ s ∈ snips, s ≠ [] ∧ ∃ e ∈ table, 80 < pr s e.2) :
    ∃ bp tb, (match_json_to_pdf pr file snips table).best = some bp ∧
      (bp, tb) ∈ table ∧
      ∀ e ∈ table, hitCount pr snips e.2 ≤ hitCount pr snips tb := by
  obtain ⟨bp, hbest⟩ := exists_best_of_hit pr file snips table hnd hex
  obtain ⟨tb, hmem, _, _, hmax, _, _⟩ :=
    best_characterization pr file snips table bp hnd hbest
  exact ⟨bp, tb, hbest, hmem, hmax⟩

/-- C1 witness: a one-snippet record hitting the only PDF. -/
theorem C1_witness :
    (([("A", demoText)] : PdfTable).map Prod.fst).Nodup ∧
    (∃ s ∈ [(['X'] : Str)], s ≠ [] ∧
      ∃ e ∈ ([("A", demoText)] : PdfTable), 80 < prSub s e.2) ∧
    ∃ bp tb,
      (match_json_to_pdf prSub "rec.json" [['X']] [("A", demoText)]).best
        = some bp ∧
      (bp, tb) ∈ ([("A", demoText)] : PdfTable) ∧
      ∀ e ∈ ([("A", demoText)] : PdfTable),
        hitCount prSub [['X']] e.2 ≤ hitCount prSub [['X']] tb :=
  ⟨by decide, by decide,
   C1_best_is_maximal prSub "rec.json" [['X']] [("A", demoText)]
     (by decide) (by decide)⟩

/-- C2 counterexample: a record with snippets "X" and "Y", both exact
substrings of the single PDF's text (so both score 100 > 80 under a scorer
agreeing with rapidfuzz on exact substrings), yet the code pairs "Y" with the
excerpt located for "X" — the first hitting snippet — rather than with an
excerpt located for "Y" itself, as the claim states. -/
theorem C2_counterexample :
    (match_json_to_pdf prSub "rec.json" [['X'], ['Y']] [("A", demoText)]).best
        = some "A" ∧
    80 < prSub ['X'] demoText ∧ 80 < prSub ['Y'] demoText ∧
    excerptFor demoText ['X'] ≠ excerptFor demoText ['Y'] ∧
    (match_json_to_pdf prSub "rec.json" [['X'], ['Y']] [("A", demoText)]).pairs
      ≠ [(['X'], excerptFor demoText ['X']),
         (['Y'], excerptFor demoText ['Y'])] := by
  decide

/-- C2 (amended): whenever a best PDF is selected, every snippet scoring
above the threshold against its text is paired with one and the same
excerpt, the one computed for the first snippet that hit the best PDF
(located case-insensitively; window of 50 characters before and after the
span, or the first 100 characters of the text when not found; newlines
replaced by spaces — all of which `excerptFor` embeds). -/
theorem C2_shared_excerpt (pr : Str → Str → Nat) (file : String)
    (snips : List Str) (table : PdfTable) (bp : String)
    (hnd : (table.map Prod.fst).Nodup)
    (hbest : (match_json_to_pdf pr file snips table).best = some bp) :
    ∃ tb s₀, (bp, tb) ∈ table ∧
      snips.find? (isHit pr tb) = some s₀ ∧
      (match_json_to_pdf pr file snips table).pairs =
        (snips.filter (fun o => decide (80 < pr o tb))).map
          (fun o => (o, excerptFor tb s₀)) := by
  obtain ⟨tb, hmem, hpos, _, _, _, hpairs⟩ :=
    best_characterization pr file snips table bp hnd hbest
  have hfs : ∃ s₀, snips.find? (isHit pr tb) = some s₀ := by
    obtain ⟨s, hsmem⟩ :=
      List.exists_mem_of_ne_nil _ (List.ne_nil_of_length_pos hpos)
    have hs := List.mem_filter.1 hsmem
    exact Option.isSome_iff_exists.1
      (List.find?_isSome.2 ⟨s, hs.1, hs.2⟩)
  obtain ⟨s₀, hs₀⟩ := hfs
  refine ⟨tb, s₀, hmem, hs₀, ?_⟩
  rw [hpairs, hs₀]
  rfl

/-- C2 witness: the double-substring scenario, where the shared excerpt is
the one located for the first hitting snippet "X". -/
theorem C2_witness :
    (([("A", demoText)] : PdfTable).map Prod.fst).Nodup ∧
    (match_json_to_pdf prSub "rec.json" [['X'], ['Y']] [("A", demoText)]).best
        = some "A" ∧
    ∃ tb s₀, ("A", tb) ∈ ([("A", demoText)] : PdfTable) ∧
      ([(['X'] : Str), ['Y']].find? (isHit prSub tb)) = some s₀ ∧
      (match_json_to_pdf prSub "rec.json" [['X'], ['Y']] [("A", demoText)]).pairs
        = ([(['X'] : Str), ['Y']].filter
            (fun o => decide (80 < prSub o tb))).map
            (fun o => (o, excerptFor tb s₀)) :=
  ⟨by decide, by decide,
   C2_shared_excerpt prSub "rec.json" [['X'], ['Y']] [("A", demoText)] "A"
     (by decide) (by decide)⟩

/-- C3 counterexample: a record whose only item carries an empty
`original_text` loads with ONE snippet — the empty string — not zero: the
loader keeps every item that has the field, so snippets with no text are not
dropped at load time. -/
theorem C3_counterexample :
    load_json_texts [some ([] : Str)] = [([] : Str)] ∧
    (load_json_texts [some ([] : Str)]).length = 1 :=
  ⟨rfl, rfl⟩

/-- C3 (amended): the loader keeps empty snippets (a record whose only
snippet is the empty string loads with one snippet, not zero); empty
snippets are instead skipped during scoring, so such a record still yields a
MatchResult with no best PDF, count 0 and no evidence, against any table and
any scorer. -/
theorem C3_empty_kept_but_skipped (pr : Str → Str → Nat) (file : String)
    (table : PdfTable) :
    load_json_texts [some ([] : Str)] = [([] : Str)] ∧
    match_json_to_pdf pr file (load_json_texts [some ([] : Str)]) table
      = ⟨file, none, 0, []⟩ := by
  refine ⟨rfl, ?_⟩
  apply no_hits_result
  intro s hs e _ hne
  simp [load_json_texts] at hs
  exact absurd hs hne

/-- C4 counterexample: with a cache file present but unreadable, `main` does
not fall back to extraction — the `pickle.load` failure propagates uncaught
and the run aborts with the error instead of completing. -/
theorem C4_counterexample :
    loadPdfTexts (CacheState.present (Except.error "unpickling error"))
        [("A", demoText)]
      = Except.error "unpickling error" := rfl

/-- C4 (amended): full extraction is used exactly when the cache file is
absent; a present, readable cache is used as-is; a present but unreadable
cache aborts the run with the read error rather than falling back. -/
theorem C4_cache_behavior :
    (∀ extracted : PdfTable,
      loadPdfTexts CacheState.absent extracted = Except.ok extracted) ∧
    (∀ (m extracted : PdfTable),
      loadPdfTexts (CacheState.present (Except.ok m)) extracted
        = Except.ok m) ∧
    (∀ (err : String) (extracted : PdfTable),
      loadPdfTexts (CacheState.present (Except.error err)) extracted
        = Except.error err) :=
  ⟨fun _ => rfl, fun _ _ => rfl, fun _ _ => rfl⟩

/-- C5: a record with zero snippets, or whose snippets all score at or below
the threshold against every PDF (including the empty-table case, where the
hypothesis is vacuous), yields no best PDF, a count of 0 and no evidence. -/
theorem C5_no_hits_yields_empty (pr : Str → Str → Nat) (file : String)
    (snips : List Str) (table : PdfTable)
    (h : ∀ s ∈ snips, ∀ e ∈ table, s ≠ [] → pr s e.2 ≤ 80) :
    match_json_to_pdf pr file snips table = ⟨file, none, 0, []⟩ :=
  no_hits_result pr file snips table h

/-- C5 witness: a snippet absent from the only PDF scores 0 ≤ 80. -/
theorem C5_witness :
    (∀ s ∈ [(['q'] : Str)], ∀ e ∈ ([("A", demoText)] : PdfTable),
      s ≠ [] → prSub s e.2 ≤ 80) ∧
    match_json_to_pdf prSub "rec.json" [['q']] [("A", demoText)]
      = ⟨"rec.json", none, 0, []⟩ :=
  ⟨by decide,
   C5_no_hits_yields_empty prSub "rec.json" [['q']] [("A", demoText)]
     (by decide)⟩

/-- C6: ties for the maximum hit count are broken by traversal order of the
PDF-text table: the selected best PDF is the FIRST table entry whose hit
count equals the returned (maximal) count — each PDF's first hit is recorded
while its own entry is traversed, so first-hit order is table order — and a
repeated run on the same inputs returns the identical result. -/
theorem C6_tie_break_first_in_order (pr : Str → Str → Nat) (file : String)
    (snips : List Str) (table : PdfTable) (bp : String)
    (hnd : (table.map Prod.fst).Nodup)
    (hbest : (match_json_to_pdf pr file snips table).best = some bp) :
    ∃ tb,
      table.find? (fun e => hitCount pr snips e.2
          == (match_json_to_pdf pr file snips table).count) = some (bp, tb) ∧
      (∀ e ∈ table, hitCount pr snips e.2
          ≤ (match_json_to_pdf pr file snips table).count) ∧
      match_json_to_pdf pr file snips table
        = match_json_to_pdf pr file snips table := by
  obtain ⟨tb, _, _, hcnt, hmax, hfind, _⟩ :=
    best_characterization pr file snips table bp hnd hbest
  refine ⟨tb, ?_, ?_, rfl⟩
  · rw [hcnt]
    exact hfind
  · intro e he
    rw [hcnt]
    exact hmax e he

/-- C6 witness: two PDFs with byte-identical text both hit by the record's
snippet; the first table entry "A" is selected. -/
theorem C6_witness :
    (([("A", demoText), ("B", demoText)] : PdfTable).map Prod.fst).Nodup ∧
    (match_json_to_pdf prSub "rec.json" [['X']]
        [("A", demoText), ("B", demoText)]).best = some "A" ∧
    ∃ tb,
      ([("A", demoText), ("B", demoText)] : PdfTable).find?
          (fun e => hitCount prSub [['X']] e.2
            == (match_json_to_pdf prSub "rec.json" [['X']]
                  [("A", demoText), ("B", demoText)]).count) = some ("A", tb) ∧
      (∀ e ∈ ([("A", demoText), ("B", demoText)] : PdfTable),
        hitCount prSub [['X']] e.2
          ≤ (match_json_to_pdf prSub "rec.json" [['X']]
              [("A", demoText), ("B", demoText)]).count) ∧
      match_json_to_pdf prSub "rec.json" [['X']]
          [("A", demoText), ("B", demoText)]
        = match_json_to_pdf prSub "rec.json" [['X']]
            [("A", demoText), ("B", demoText)] :=
  ⟨by decide, by decide,
   C6_tie_break_first_in_order prSub "rec.json" [['X']]
     [("A", demoText), ("B", demoText)] "A" (by decide) (by decide)⟩

/-- C7: for a MatchResult with k ≥ 1 evidence pairs the exporter emits
exactly k data rows, each carrying the record file, best PDF, count, snippet
and excerpt; for k = 0 it emits exactly one placeholder row with empty
snippet and excerpt fields; and the full report is the concatenation of each
result's rows in order. -/
theorem C7_exporter_rows (r : MatchResult) (results : List MatchResult) :
    (r.pairs ≠ [] →
      rowsFor r = r.pairs.map (fun p => ⟨r.file, r.best, r.count, p.1, p.2⟩) ∧
      (rowsFor r).length = r.pairs.length) ∧
    (r.pairs = [] → rowsFor r = [⟨r.file, r.best, r.count, [], []⟩]) ∧
    writeCsv results = (results.map rowsFor).flatten := by
  refine ⟨?_, ?_, ?_⟩
  · intro h
    have hne : r.pairs.isEmpty = false := by
      simp [List.isEmpty_iff, h]
    exact ⟨by simp [rowsFor, hne], by simp [rowsFor, hne]⟩
  · intro h
    simp [rowsFor, h]
  · have h := foldl_append_blocks rowsFor results []
    simpa [writeCsv] using h

/-- C7 witness: a result with two evidence pairs yields exactly its two data
rows. -/
theorem C7_witness :
    rowsFor ⟨"r", some "A", 2, [(['x'], ['e']), (['y'], ['f'])]⟩
      = [⟨"r", some "A", 2, ['x'], ['e']⟩, ⟨"r", some "A", 2, ['y'], ['f']⟩] ∧
    (rowsFor ⟨"r", some "A", 2, [(['x'], ['e']), (['y'], ['f'])]⟩).length
      = 2 :=
  (C7_exporter_rows ⟨"r", some "A", 2, [(['x'], ['e']), (['y'], ['f'])]⟩ []).1
    (by decide)

/-- C8: the extracted text of a PDF is the concatenation of the per-page
texts in document order, separated by newlines, and a page with no
extractable text contributes an empty segment rather than being skipped (the
segment list has one entry per page, and replacing an empty page by an
explicit empty text changes nothing). -/
theorem C8_extract_concat (pages pre post : List (Option Str)) :
    extract_pdf_text pages = joinPages (pages.map (fun p => p.getD [])) ∧
    (pages.map (fun p => p.getD [])).length = pages.length ∧
    extract_pdf_text (pre ++ none :: post)
      = extract_pdf_text (pre ++ some [] :: post) := by
  refine ⟨?_, by simp, ?_⟩
  · unfold extract_pdf_text
    rw [foldl_push (fun p : Option Str => p.getD []) pages []]
    rfl
  · unfold extract_pdf_text
    rw [foldl_push (fun p : Option Str => p.getD []) (pre ++ none :: post) [],
      foldl_push (fun p : Option Str => p.getD []) (pre ++ some [] :: post) []]
    simp

/-- C9: the matcher is deterministic — two runs of `match_json_to_pdf` on
equal scorers, record files, snippet lists and PDF-text tables (same
contents in the same insertion order) return identical MatchResults.  The
embedding is a pure function of exactly these inputs, so determinism is
congruence in them. -/
theorem C9_deterministic (pr pr' : Str → Str → Nat) (file file' : String)
    (snips snips' : List Str) (table table' : PdfTable)
    (h1 : pr = pr') (h2 : file = file') (h3 : snips = snips')
    (h4 : table = table') :
    match_json_to_pdf pr file snips table
      = match_json_to_pdf pr' file' snips' table' := by
  subst h1 h2 h3 h4
  rfl

/-- C9 witness: two runs on the same concrete inputs agree. -/
theorem C9_witness :
    match_json_to_pdf prSub "rec.json" [['X']] [("A", demoText)]
      = match_json_to_pdf prSub "rec.json" [['X']] [("A", demoText)] :=
  C9_deterministic prSub prSub "rec.json" "rec.json" [['X']] [['X']]
    [("A", demoText)] [("A", demoText)] rfl rfl rfl rfl

/-- C10: whenever a best PDF is returned, the match count is at least 1 and
equals exactly the number of non-empty snippets (duplicates counted
separately) scoring strictly above 80 against the best PDF's text — that is
`hitCount`. -/
theorem C10_count_exact (pr : Str → Str → Nat) (file : String)
    (snips : List Str) (table : PdfTable) (bp : String)
    (hnd : (table.map Prod.fst).Nodup)
    (hbest : (match_json_to_pdf pr file snips table).best = some bp) :
    ∃ tb, (bp, tb) ∈ table ∧
      (match_json_to_pdf pr file snips table).count
        = hitCount pr snips tb ∧
      1 ≤ (match_json_to_pdf pr file snips table).count := by
  obtain ⟨tb, hmem, hpos, hcnt, _, _, _⟩ :=
    best_characterization pr file snips table bp hnd hbest
  refine ⟨tb, hmem, hcnt, ?_⟩
  rw [hcnt]
  exact hpos

/-- C10 witness: the two-snippet record scores count 2 = its hit count. -/
theorem C10_witness :
    (([("A", demoText)] : PdfTable).map Prod.fst).Nodup ∧
    (match_json_to_pdf prSub "rec.json" [['X'], ['Y']] [("A", demoText)]).best
        = some "A" ∧
    ∃ tb, ("A", tb) ∈ ([("A", demoText)] : PdfTable) ∧
      (match_json_to_pdf prSub "rec.json" [['X'], ['Y']]
          [("A", demoText)]).count = hitCount prSub [['X'], ['Y']] tb ∧
      1 ≤ (match_json_to_pdf prSub "rec.json" [['X'], ['Y']]
          [("A", demoText)]).count :=
  ⟨by decide, by decide,
   C10_count_exact prSub "rec.json" [['X'], ['Y']] [("A", demoText)] "A"
     (by decide) (by decide)⟩

end PdfScraper
